import Mathlib

/-!
Shallow embedding of the hybrid retrieval engine of `hybrid_search.py`
(`HybridSearchRetriever`): BM25 + vector-search score fusion.

Modelling conventions:
* Python floats are modelled as rationals (`ℚ`); all arithmetic in the engine
  is elementary (min, max, subtraction, division, linear combination), so the
  rational model tracks the real-number semantics of the code exactly.
* The external collaborators (the `rank_bm25` BM25 index built in `__init__`
  and the Chroma vector database queried via `similarity_search_with_score`)
  are modelled as function-valued fields of the retriever: the engine treats
  both as black boxes returning score/distance lists.
* `numpy.argsort` (ascending, followed by `[::-1]` reversal in the code) is
  modelled as a deterministic ascending comparison sort (an insertion sort)
  over the index range. numpy's default quicksort is not stable for arrays
  beyond its small-array insertion-sort path, so no theorem below relies on a
  universal tie order: the general theorems use only properties every
  deterministic comparison sort has (the output is a permutation of the index
  range, and pointwise-identical comparisons give identical output), and tie
  behaviour is only stated for a concrete 3-element array, where numpy runs
  the insertion sort the model matches exactly.
* Python's `list[:k]` slice (including negative `k`) is modelled by `pyTake`.
* Python dicts keyed by strings are modelled as association lists where
  assignment overwrites in place or appends at the end (`dictInsert`).
-/

/- The rational arithmetic primitives are `irreducible` by default, which
blocks definitional evaluation of concrete score computations; restore the
default reducibility for this development so witnesses evaluate by `rfl` and
`decide`. -/
attribute [local semireducible] Rat.add Rat.mul Rat.sub Rat.inv Rat.ofScientific

/-- String literals used as metadata dictionary keys in the code. -/
def srcKey : String := "source"

def hybridKey : String := "hybrid_score"

def bm25Key : String := "bm25_score"

def vectorKey : String := "vector_score"

/-- Default source label used by `metadata.get('source', '不明')`. -/
def unknownSrc : String := "不明"

def noText : String := ""

/-- A value stored in a chunk's metadata dictionary. -/
inductive MetaVal where
  | str (s : String)
  | num (q : ℚ)
deriving DecidableEq, Repr

/-- A Python metadata dict: ordered association list over string keys. -/
abbrev Metadata := List (String × MetaVal)

/-- `d.get(k)`: first binding of key `k`, if any. -/
def dictGet? (d : Metadata) (k : String) : Option MetaVal :=
  (d.find? (fun p => decide (p.1 = k))).map (fun p => p.2)

/-- `d[k] = v`: overwrite the existing binding in place, else append. -/
def dictInsert (d : Metadata) (k : String) (v : MetaVal) : Metadata :=
  match d with
  | [] => [(k, v)]
  | p :: ps => if p.1 = k then (k, v) :: ps else p :: dictInsert ps k v

/-- `HybridSearchRetriever._tokenize`: character unigrams, bigrams, trigrams. -/
def tokenize (text : String) : List String :=
  let cs := text.toList
  let chars := cs.map (fun c => String.mk [c])
  let bigrams := (List.range (cs.length - 1)).map (fun i => String.mk ((cs.drop i).take 2))
  let trigrams := (List.range (cs.length - 2)).map (fun i => String.mk ((cs.drop i).take 3))
  chars ++ bigrams ++ trigrams

/-- Code-point lexicographic comparison of character lists (Python `str` order). -/
def charListLe : List Char → List Char → Bool
  | [], _ => true
  | _ :: _, [] => false
  | a :: as, b :: bs =>
    if a.toNat < b.toNat then true
    else if b.toNat < a.toNat then false
    else charListLe as bs

/-- Python string `<=` (code-point lexicographic). -/
def strLe (a b : String) : Bool := charListLe a.toList b.toList

/-- Ordering on metadata values used to model Python `sorted` over the
`source` keys (all of which are strings in this system). -/
def mvLe : MetaVal → MetaVal → Bool
  | MetaVal.str a, MetaVal.str b => strLe a b
  | MetaVal.str _, MetaVal.num _ => true
  | MetaVal.num _, MetaVal.str _ => false
  | MetaVal.num a, MetaVal.num b => decide (a ≤ b)

/-- Stable insertion into a list sorted by `le`. -/
def insertLe {α : Type} (le : α → α → Bool) (x : α) : List α → List α
  | [] => [x]
  | y :: ys => if le x y then x :: y :: ys else y :: insertLe le x ys

/-- Stable ascending insertion sort by `le`. -/
def insSort {α : Type} (le : α → α → Bool) : List α → List α
  | [] => []
  | x :: xs => insertLe le x (insSort le xs)

/-- Entry `i` of a score vector (in-range everywhere it is used). -/
def scoreAt (s : List ℚ) (i : Nat) : ℚ := s.getD i 0

/-- `numpy.argsort`: the score indices in ascending score order, modelled by a
deterministic insertion sort. numpy's default quicksort agrees with this model
on comparison outcomes but guarantees no particular tie order above its
small-array insertion-sort cutoff, so the theorems below use only sort-generic
properties (`argsortAsc_perm`, `insSort_congr`) — except on concrete arrays
small enough for numpy's insertion-sort path, where the model is exact. -/
def argsortAsc (s : List ℚ) : List Nat :=
  insSort (fun i j => decide (scoreAt s i ≤ scoreAt s j)) (List.range s.length)

/-- Python slice `l[:k]`, including the negative-`k` case. -/
def pyTake {α : Type} (k : Int) (l : List α) : List α :=
  if k < 0 then l.take (l.length - (-k).toNat) else l.take k.toNat

/-- Minimum of a score vector (`numpy.min`; 0 on the empty vector, unused). -/
def listMin : List ℚ → ℚ
  | [] => 0
  | x :: xs => xs.foldl min x

/-- Maximum of a score vector (`numpy.max`; 0 on the empty vector, unused). -/
def listMax : List ℚ → ℚ
  | [] => 0
  | x :: xs => xs.foldl max x

/-- `HybridSearchRetriever._normalize_scores`: min–max normalization, with the
all-equal case mapped to the all-ones vector. -/
def normalizeScores (scores : List ℚ) : List ℚ :=
  if scores.isEmpty then scores
  else if listMax scores = listMin scores then scores.map (fun _ => 1)
  else scores.map (fun x => (x - listMin scores) / (listMax scores - listMin scores))

/-- `documents.index(text)`: position of the first chunk with this exact text
(`None` models the `ValueError` branch, which the code skips over). -/
def firstIdx? (docs : List String) (text : String) : Option Nat :=
  match docs with
  | [] => none
  | d :: ds => if d = text then some 0 else (firstIdx? ds text).map (fun n => n + 1)

/-- One step of building `vector_scores_dict`: a returned `(text, distance)`
pair assigns `-distance` to the first corpus position with that text
(overwriting any earlier assignment); unmatched texts are skipped. -/
def vecMapStep (docs : List String) (m : Nat → Option ℚ) (p : String × ℚ) : Nat → Option ℚ :=
  match firstIdx? docs p.1 with
  | some i => fun j => if j = i then some (-p.2) else m j
  | none => m

def vecMapFrom (docs : List String) (results : List (String × ℚ)) (m : Nat → Option ℚ) :
    Nat → Option ℚ :=
  results.foldl (vecMapStep docs) m

/-- `vector_scores_dict` as a partial map from corpus position to `-distance`. -/
def vecMap (docs : List String) (results : List (String × ℚ)) : Nat → Option ℚ :=
  vecMapFrom docs results (fun _ => none)

/-- The dense per-chunk vector score array: `-distance` where the similarity
source matched the chunk, `-1000.0` where it did not. -/
def vectorScores (docs : List String) (results : List (String × ℚ)) : List ℚ :=
  (List.range docs.length).map (fun i => (vecMap docs results i).getD (-1000))

/-- A langchain `Document`: page content plus a metadata dict. `Document`
construction validates (and thereby shallow-copies) the metadata dict it is
given, so a result's dict is a fresh value, never an alias of the stored one. -/
structure Doc where
  page_content : String
  metadata : Metadata
deriving DecidableEq, Repr

/-- `HybridSearchRetriever` state after `__init__`. `bm25GetScores` is the
`rank_bm25` index built over the tokenized corpus; `similaritySearch` is the
Chroma call `similarity_search_with_score(query, k)` returning
`(page_content, distance)` pairs. Both are external collaborators. -/
structure Retriever where
  alpha : ℚ
  documents : List String
  metadatas : List Metadata
  tokenizedCorpus : List (List String)
  bm25GetScores : List String → List ℚ
  similaritySearch : String → Nat → List (String × ℚ)

/-- `HybridSearchRetriever.__init__` (print statements elided). -/
def mkRetriever (alpha : ℚ) (documents : List String) (metadatas : List Metadata)
    (bm25 : List String → List ℚ) (sim : String → Nat → List (String × ℚ)) : Retriever :=
  Retriever.mk alpha documents metadatas (documents.map tokenize) bm25 sim

/-- `self.bm25_weight = 1.0 - alpha`. -/
def Retriever.bm25Weight (r : Retriever) : ℚ := 1 - r.alpha

/-- Raw BM25 scores for a query: `self.bm25.get_scores(self._tokenize(query))`.-/
def Retriever.bm25Raw (r : Retriever) (q : String) : List ℚ :=
  r.bm25GetScores (tokenize q)

/-- Raw (negated-distance, filled) vector scores for a query. -/
def Retriever.vectorRaw (r : Retriever) (q : String) : List ℚ :=
  vectorScores r.documents (r.similaritySearch q r.documents.length)

def Retriever.bm25Norm (r : Retriever) (q : String) : List ℚ :=
  normalizeScores (r.bm25Raw q)

def Retriever.vectorNorm (r : Retriever) (q : String) : List ℚ :=
  normalizeScores (r.vectorRaw q)

/-- `hybrid_scores = self.bm25_weight * bm25_scores_norm + self.alpha * vector_scores_norm`. -/
def Retriever.fused (r : Retriever) (q : String) : List ℚ :=
  List.zipWith (fun b v => r.bm25Weight * b + r.alpha * v) (r.bm25Norm q) (r.vectorNorm q)

/-- `top_indices = np.argsort(hybrid_scores)[::-1][:k]`. -/
def Retriever.topIndices (r : Retriever) (q : String) (k : Int) : List Nat :=
  pyTake k (argsortAsc (r.fused q)).reverse

/-- Result construction for one ranked index: the `Document` carries the
stored metadata plus the three provenance score keys added in ranking order. -/
def Retriever.resultAt (r : Retriever) (q : String) (idx : Nat) : Doc × ℚ :=
  let base := r.metadatas.getD idx []
  let score := scoreAt (r.fused q) idx
  let md :=
    dictInsert
      (dictInsert (dictInsert base hybridKey (MetaVal.num score))
        bm25Key (MetaVal.num (scoreAt (r.bm25Norm q) idx)))
      vectorKey (MetaVal.num (scoreAt (r.vectorNorm q) idx))
  (Doc.mk (r.documents.getD idx noText) md, score)

/-- `HybridSearchRetriever.search`. -/
def Retriever.search (r : Retriever) (q : String) (k : Int) : List (Doc × ℚ) :=
  (r.topIndices q k).map (r.resultAt q)

/-- `doc.metadata.get('source', '不明')`. -/
def resultSource (p : Doc × ℚ) : MetaVal :=
  (dictGet? p.1.metadata srcKey).getD (MetaVal.str unknownSrc)

/-- The `source` label of corpus position `i`. -/
def Retriever.metaSourceAt (r : Retriever) (i : Nat) : MetaVal :=
  (dictGet? (r.metadatas.getD i []) srcKey).getD (MetaVal.str unknownSrc)

/-- `defaultdict` key list: distinct values in order of first appearance. -/
def uniqKeysAux : List MetaVal → List MetaVal → List MetaVal
  | [], _ => []
  | x :: xs, seen =>
    if x ∈ seen then uniqKeysAux xs seen else x :: uniqKeysAux xs (x :: seen)

def uniqKeys (l : List MetaVal) : List MetaVal := uniqKeysAux l []

/-- `HybridSearchRetriever.search_multi_source`: full-corpus search, group by
source, take the first `k_per_source` of each group, concatenate the groups in
sorted source order. -/
def Retriever.searchMultiSource (r : Retriever) (q : String) (kps : Int) : List (Doc × ℚ) :=
  let all := r.search q (r.documents.length : Int)
  let keys := insSort mvLe (uniqKeys (all.map resultSource))
  (keys.map (fun s => pyTake kps (all.filter (fun p => decide (resultSource p = s))))).flatten

/-- `search` with the retriever state threaded explicitly: the method only
reads `self`, and each result's metadata dict is a fresh validated copy, so
the state component passes through unchanged. -/
def Retriever.searchSt (r : Retriever) (q : String) (k : Int) : Retriever × List (Doc × ℚ) :=
  (r, r.search q k)

/-- The distinct source labels of the corpus, in first-appearance order. -/
def Retriever.sourceList (r : Retriever) : List MetaVal :=
  uniqKeys ((List.range r.documents.length).map (fun i => r.metaSourceAt i))

/-- Number of corpus chunks carrying source label `s`. -/
def Retriever.sourceCount (r : Retriever) (s : MetaVal) : Nat :=
  List.countP (fun i => decide (r.metaSourceAt i = s)) (List.range r.documents.length)

/-- The ranking the code would produce from a single raw score vector: stable
ascending argsort, reversed, truncated to `k`. -/
def pureRanking (s : List ℚ) (k : Int) : List Nat :=
  pyTake k (argsortAsc s).reverse

/-! Concrete instances used to settle the scenario-level statements: a 3-chunk
corpus from two sources realising the spec's tie scenario (raw lexical scores
`[2, 0, 1]` normalize to `[1, 0, 1/2]`, vector distances `[2, 0, 1]` negate and
normalize to `[0, 1, 1/2]`, so with `alpha = 1/2` all fused scores are `1/2`),
a 2-chunk corpus whose similarity source returns one huge distance, and a
3-chunk corpus with byte-identical duplicate texts. -/

def txtA1 : String := "A1"

def txtA2 : String := "A2"

def txtB1 : String := "B1"

def srcNameA : String := "A"

def srcNameB : String := "B"

def srcValA : MetaVal := MetaVal.str srcNameA

def srcValB : MetaVal := MetaVal.str srcNameB

def qy : String := "q"

def exDocs : List String := [txtA1, txtA2, txtB1]

def exMetas : List Metadata := [[(srcKey, srcValA)], [(srcKey, srcValA)], [(srcKey, srcValB)]]

def exBm25 : List String → List ℚ := fun _ => [2, 0, 1]

def exSim : String → Nat → List (String × ℚ) := fun _ _ => [(txtA1, 2), (txtA2, 0), (txtB1, 1)]

def exR : Retriever := mkRetriever (1/2) exDocs exMetas exBm25 exSim

def txtA : String := "a"

def txtB : String := "b"

def exDocs2 : List String := [txtA, txtB]

def exMetas2 : List Metadata := [[(srcKey, srcValA)], [(srcKey, srcValB)]]

def exBm25two : List String → List ℚ := fun _ => [0, 0]

def exSim2 : String → Nat → List (String × ℚ) := fun _ _ => [(txtA, 2000)]

def exR2 : Retriever := mkRetriever (1/2) exDocs2 exMetas2 exBm25two exSim2

def exDocs3 : List String := [txtA, txtA, txtB]

def exMetas3 : List Metadata := [[(srcKey, srcValA)], [(srcKey, srcValA)], [(srcKey, srcValB)]]

def exSim3 : String → Nat → List (String × ℚ) := fun _ _ => [(txtA, 1), (txtB, 3)]

def exR3 : Retriever := mkRetriever (1/2) exDocs3 exMetas3 exBm25 exSim3

def exR0 : Retriever := mkRetriever 0 exDocs exMetas exBm25 exSim

/-! ### Sorting lemmas: the stable insertion sort modelling `numpy.argsort` -/

theorem insertLe_perm {α : Type} (le : α → α → Bool) (x : α) (l : List α) :
    (insertLe le x l).Perm (x :: l) := by
  induction l with
  | nil => simp [insertLe]
  | cons y ys ih =>
    simp only [insertLe]
    cases h : le x y with
    | true => simp
    | false =>
      simp only [Bool.false_eq_true, if_false]
      exact (ih.cons y).trans (List.Perm.swap x y ys)

theorem insSort_perm {α : Type} (le : α → α → Bool) (l : List α) :
    (insSort le l).Perm l := by
  induction l with
  | nil => simp [insSort]
  | cons x xs ih => exact (insertLe_perm le x (insSort le xs)).trans (ih.cons x)

theorem insertLe_congr {α : Type} (le₁ le₂ : α → α → Bool) (x : α) (l : List α)
    (h : ∀ y ∈ l, le₁ x y = le₂ x y) : insertLe le₁ x l = insertLe le₂ x l := by
  induction l with
  | nil => rfl
  | cons y ys ih =>
    simp only [insertLe]
    rw [h y (List.mem_cons_self y ys)]
    cases le₂ x y with
    | true => simp
    | false =>
      simp only [Bool.false_eq_true, if_false]
      rw [ih (fun z hz => h z (List.mem_cons_of_mem y hz))]

theorem insSort_congr {α : Type} (le₁ le₂ : α → α → Bool) (l : List α)
    (h : ∀ x ∈ l, ∀ y ∈ l, le₁ x y = le₂ x y) : insSort le₁ l = insSort le₂ l := by
  induction l with
  | nil => rfl
  | cons x xs ih =>
    simp only [insSort]
    rw [ih (fun a ha b hb => h a (List.mem_cons_of_mem x ha) b (List.mem_cons_of_mem x hb))]
    exact insertLe_congr le₁ le₂ x (insSort le₂ xs)
      (fun y hy => h x (List.mem_cons_self x xs) y
        (List.mem_cons_of_mem x ((insSort_perm le₂ xs).mem_iff.mp hy)))

/-! ### Score-vector access, min/max, and normalization lemmas -/

theorem scoreAt_map {f : ℚ → ℚ} {l : List ℚ} {i : Nat} (h : i < l.length) :
    scoreAt (l.map f) i = f (scoreAt l i) := by
  simp [scoreAt, List.getD_eq_getElem?_getD, List.getElem?_map, List.getElem?_eq_getElem h]

theorem scoreAt_zipWith {f : ℚ → ℚ → ℚ} {as bs : List ℚ} {i : Nat}
    (ha : i < as.length) (hb : i < bs.length) :
    scoreAt (List.zipWith f as bs) i = f (scoreAt as i) (scoreAt bs i) := by
  simp [scoreAt, List.getD_eq_getElem?_getD, List.getElem?_zipWith,
    List.getElem?_eq_getElem ha, List.getElem?_eq_getElem hb]

theorem scoreAt_mem {l : List ℚ} {i : Nat} (h : i < l.length) : scoreAt l i ∈ l := by
  rw [scoreAt, List.getD_eq_getElem l 0 h]
  exact List.getElem_mem h

theorem foldl_min_le_init (l : List ℚ) (a : ℚ) : l.foldl min a ≤ a := by
  induction l generalizing a with
  | nil => exact le_refl a
  | cons y ys ih => exact le_trans (ih (min a y)) (min_le_left a y)

theorem foldl_min_le_mem {l : List ℚ} {x : ℚ} (hx : x ∈ l) (a : ℚ) : l.foldl min a ≤ x := by
  induction l generalizing a with
  | nil => cases hx
  | cons y ys ih =>
    rcases List.mem_cons.mp hx with h | h
    · subst h
      exact le_trans (foldl_min_le_init ys (min a x)) (min_le_right a x)
    · exact ih h (min a y)

theorem listMin_le {l : List ℚ} {x : ℚ} (hx : x ∈ l) : listMin l ≤ x := by
  cases l with
  | nil => cases hx
  | cons y ys =>
    rcases List.mem_cons.mp hx with h | h
    · subst h
      exact foldl_min_le_init ys x
    · exact foldl_min_le_mem h y

theorem init_le_foldl_max (l : List ℚ) (a : ℚ) : a ≤ l.foldl max a := by
  induction l generalizing a with
  | nil => exact le_refl a
  | cons y ys ih => exact le_trans (le_max_left a y) (ih (max a y))

theorem mem_le_foldl_max {l : List ℚ} {x : ℚ} (hx : x ∈ l) (a : ℚ) : x ≤ l.foldl max a := by
  induction l generalizing a with
  | nil => cases hx
  | cons y ys ih =>
    rcases List.mem_cons.mp hx with h | h
    · subst h
      exact le_trans (le_max_right a x) (init_le_foldl_max ys (max a x))
    · exact ih h (max a y)

theorem le_listMax {l : List ℚ} {x : ℚ} (hx : x ∈ l) : x ≤ listMax l := by
  cases l with
  | nil => cases hx
  | cons y ys =>
    rcases List.mem_cons.mp hx with h | h
    · subst h
      exact init_le_foldl_max ys x
    · exact mem_le_foldl_max h y

theorem listMin_le_listMax {l : List ℚ} (h : l ≠ []) : listMin l ≤ listMax l := by
  cases l with
  | nil => exact absurd rfl h
  | cons y ys => exact le_trans (listMin_le (List.mem_cons_self y ys)) (le_listMax (List.mem_cons_self y ys))

theorem eq_of_listMax_eq_listMin {l : List ℚ} {x : ℚ} (hx : x ∈ l)
    (h : listMax l = listMin l) : x = listMin l :=
  le_antisymm (h ▸ le_listMax hx) (listMin_le hx)

theorem length_normalizeScores (s : List ℚ) : (normalizeScores s).length = s.length := by
  unfold normalizeScores
  split
  · rfl
  · split <;> simp

theorem sub_listMin_pos {s : List ℚ} (hne : s ≠ []) (h : ¬ listMax s = listMin s) :
    0 < listMax s - listMin s :=
  sub_pos.mpr (lt_of_le_of_ne (listMin_le_listMax hne) (fun e => h e.symm))

theorem normalizeScores_formula {s : List ℚ} {i : Nat} (hi : i < s.length)
    (h : ¬ listMax s = listMin s) :
    scoreAt (normalizeScores s) i = (scoreAt s i - listMin s) / (listMax s - listMin s) := by
  have hne : s ≠ [] := by
    intro e
    subst e
    simp at hi
  unfold normalizeScores
  rw [if_neg (by simp [hne]), if_neg h]
  exact scoreAt_map hi

theorem normalizeScores_uniform {s : List ℚ} {i : Nat} (hi : i < s.length)
    (h : listMax s = listMin s) : scoreAt (normalizeScores s) i = 1 := by
  have hne : s ≠ [] := by
    intro e
    subst e
    simp at hi
  unfold normalizeScores
  rw [if_neg (by simp [hne]), if_pos h]
  exact scoreAt_map hi

theorem normalize_le_iff {s : List ℚ} {i j : Nat} (hi : i < s.length) (hj : j < s.length) :
    (scoreAt (normalizeScores s) i ≤ scoreAt (normalizeScores s) j ↔ scoreAt s i ≤ scoreAt s j) := by
  have hne : s ≠ [] := by
    intro e
    subst e
    simp at hi
  by_cases h : listMax s = listMin s
  · rw [normalizeScores_uniform hi h, normalizeScores_uniform hj h,
      eq_of_listMax_eq_listMin (scoreAt_mem hi) h, eq_of_listMax_eq_listMin (scoreAt_mem hj) h]
    simp
  · rw [normalizeScores_formula hi h, normalizeScores_formula hj h,
      div_le_div_iff_of_pos_right (sub_listMin_pos hne h), sub_le_sub_iff_right]

/-! ### Reverse-lookup and vector-score-map lemmas -/

theorem firstIdx?_sound {docs : List String} {text : String} {n : Nat}
    (h : firstIdx? docs text = some n) : n < docs.length ∧ docs.getD n noText = text := by
  induction docs generalizing n with
  | nil => cases h
  | cons d ds ih =>
    by_cases hd : d = text
    · rw [firstIdx?, if_pos hd] at h
      obtain rfl : (0 : Nat) = n := Option.some.inj h
      simpa using hd
    · rw [firstIdx?, if_neg hd] at h
      cases e : firstIdx? ds text with
      | none =>
        rw [e] at h
        cases h
      | some m =>
        rw [e] at h
        obtain rfl : m + 1 = n := Option.some.inj h
        obtain ⟨hm, hget⟩ := ih e
        refine ⟨by simpa using Nat.succ_lt_succ hm, ?_⟩
        simpa using hget

theorem firstIdx?_min {docs : List String} {text : String} {i : Nat}
    (hi : i < docs.length) (ht : docs.getD i noText = text) :
    ∃ n, firstIdx? docs text = some n ∧ n ≤ i := by
  induction docs generalizing i with
  | nil => simp at hi
  | cons d ds ih =>
    by_cases hd : d = text
    · exact ⟨0, by rw [firstIdx?, if_pos hd], Nat.zero_le i⟩
    · cases i with
      | zero =>
        simp only [List.getD_cons_zero] at ht
        exact absurd ht hd
      | succ m =>
        have hm : m < ds.length := by simpa using hi
        have htm : ds.getD m noText = text := by simpa using ht
        obtain ⟨n, hn, hle⟩ := ih hm htm
        exact ⟨n + 1, by rw [firstIdx?, if_neg hd, hn]; rfl, by omega⟩

theorem vecMapFrom_some {docs : List String} {results : List (String × ℚ)}
    {m : Nat → Option ℚ} {j : Nat} {v : ℚ}
    (h : vecMapFrom docs results m j = some v) :
    (∃ p ∈ results, firstIdx? docs p.1 = some j ∧ v = -p.2) ∨ m j = some v := by
  induction results generalizing m with
  | nil => exact Or.inr h
  | cons p ps ih =>
    rcases ih h with big | hm
    · obtain ⟨p', hp', hfi, hv⟩ := big
      exact Or.inl ⟨p', List.mem_cons_of_mem p hp', hfi, hv⟩
    · cases e : firstIdx? docs p.1 with
      | none =>
        simp only [vecMapStep, e] at hm
        exact Or.inr hm
      | some i =>
        simp only [vecMapStep, e] at hm
        by_cases hji : j = i
        · rw [if_pos hji] at hm
          exact Or.inl ⟨p, List.mem_cons_self p ps, hji ▸ e, (Option.some.inj hm).symm⟩
        · rw [if_neg hji] at hm
          exact Or.inr hm

theorem vecMapFrom_none {docs : List String} {results : List (String × ℚ)}
    {m : Nat → Option ℚ} {j : Nat} (hm : m j = none)
    (h : ∀ p ∈ results, firstIdx? docs p.1 ≠ some j) :
    vecMapFrom docs results m j = none := by
  induction results generalizing m with
  | nil => exact hm
  | cons p ps ih =>
    refine ih ?_ (fun p' hp' => h p' (List.mem_cons_of_mem p hp'))
    cases e : firstIdx? docs p.1 with
    | none =>
      simp only [vecMapStep, e]
      exact hm
    | some i =>
      have hji : j ≠ i := fun hj => h p (List.mem_cons_self p ps) (hj ▸ e)
      simp only [vecMapStep, e]
      rw [if_neg hji]
      exact hm

theorem vecMap_some_firstIdx {docs : List String} {results : List (String × ℚ)}
    {j : Nat} {v : ℚ} (h : vecMap docs results j = some v) :
    firstIdx? docs (docs.getD j noText) = some j := by
  rcases vecMapFrom_some h with ⟨p, _, hfi, _⟩ | hm
  · obtain ⟨_, hget⟩ := firstIdx?_sound hfi
    rw [hget]
    exact hfi
  · cases hm

theorem vecMap_dup_none {docs : List String} {results : List (String × ℚ)}
    {i j : Nat} (hij : i < j) (hj : j < docs.length)
    (hdup : docs.getD i noText = docs.getD j noText) :
    vecMap docs results j = none := by
  refine vecMapFrom_none rfl (fun p hp hcontra => ?_)
  obtain ⟨hjlen, hget⟩ := firstIdx?_sound hcontra
  obtain ⟨n, hn, hle⟩ := firstIdx?_min (lt_trans hij hj) (hdup.trans hget)
  rw [hcontra] at hn
  have hjn : j = n := Option.some.inj hn
  omega

theorem scoreAt_vectorScores {docs : List String} {results : List (String × ℚ)} {i : Nat}
    (h : i < docs.length) :
    scoreAt (vectorScores docs results) i = (vecMap docs results i).getD (-1000) := by
  simp [vectorScores, scoreAt, List.getD_eq_getElem?_getD, List.getElem?_map,
    List.getElem?_range, h]

theorem length_vectorScores (docs : List String) (results : List (String × ℚ)) :
    (vectorScores docs results).length = docs.length := by
  simp [vectorScores]

/-! ### Metadata-dictionary and key-grouping lemmas -/

theorem dictGet?_insert_self (d : Metadata) (k : String) (v : MetaVal) :
    dictGet? (dictInsert d k v) k = some v := by
  induction d with
  | nil => simp [dictInsert, dictGet?]
  | cons p ps ih =>
    by_cases h : p.1 = k
    · simp [dictInsert, h, dictGet?]
    · simp only [dictInsert, if_neg h]
      rw [dictGet?, List.find?_cons_of_neg _ (by simpa using h)]
      exact ih

theorem dictGet?_insert_ne (d : Metadata) (k : String) (v : MetaVal) {k' : String}
    (h : k' ≠ k) : dictGet? (dictInsert d k v) k' = dictGet? d k' := by
  have hkk : ¬ (k = k') := fun e => h e.symm
  induction d with
  | nil => simp [dictInsert, dictGet?, hkk]
  | cons p ps ih =>
    by_cases hp : p.1 = k
    · have hpk : ¬ (p.1 = k') := fun e => h (e.symm.trans hp)
      simp [dictInsert, hp, dictGet?, List.find?, hkk, hpk]
    · by_cases hp' : p.1 = k'
      · simp only [dictInsert, if_neg hp]
        simp [dictGet?, List.find?, hp']
      · simp only [dictGet?] at ih
        simp only [dictInsert, if_neg hp]
        simp [dictGet?, List.find?, hp', ih]

theorem mem_uniqKeysAux {l seen : List MetaVal} {x : MetaVal} :
    x ∈ uniqKeysAux l seen ↔ x ∈ l ∧ x ∉ seen := by
  induction l generalizing seen with
  | nil => simp [uniqKeysAux]
  | cons y ys ih =>
    by_cases hy : y ∈ seen
    · rw [uniqKeysAux, if_pos hy, ih]
      constructor
      · rintro ⟨hx, hs⟩
        exact ⟨List.mem_cons_of_mem y hx, hs⟩
      · rintro ⟨hx, hs⟩
        rcases List.mem_cons.mp hx with rfl | hx'
        · exact absurd hy hs
        · exact ⟨hx', hs⟩
    · rw [uniqKeysAux, if_neg hy]
      constructor
      · intro hx
        rcases List.mem_cons.mp hx with rfl | hx'
        · exact ⟨List.mem_cons_self x ys, hy⟩
        · obtain ⟨h1, h2⟩ := ih.mp hx'
          refine ⟨List.mem_cons_of_mem y h1, fun hs => h2 (List.mem_cons_of_mem y hs)⟩
      · rintro ⟨hx, hs⟩
        rcases List.mem_cons.mp hx with rfl | hx'
        · exact List.mem_cons_self x _
        · by_cases hxy : x = y
          · subst hxy
            exact List.mem_cons_self x _
          · exact List.mem_cons_of_mem y
              (ih.mpr ⟨hx', fun hsx => by
                rcases List.mem_cons.mp hsx with e | hsx'
                · exact hxy e
                · exact hs hsx'⟩)

theorem nodup_uniqKeysAux {l seen : List MetaVal} : (uniqKeysAux l seen).Nodup := by
  induction l generalizing seen with
  | nil => simp [uniqKeysAux]
  | cons y ys ih =>
    by_cases hy : y ∈ seen
    · rw [uniqKeysAux, if_pos hy]
      exact ih
    · rw [uniqKeysAux, if_neg hy]
      refine List.Nodup.cons ?_ ih
      intro hmem
      exact (mem_uniqKeysAux.mp hmem).2 (List.mem_cons_self y seen)

theorem mem_uniqKeys {l : List MetaVal} {x : MetaVal} : x ∈ uniqKeys l ↔ x ∈ l := by
  rw [uniqKeys, mem_uniqKeysAux]
  simp

theorem nodup_uniqKeys (l : List MetaVal) : (uniqKeys l).Nodup := nodup_uniqKeysAux

/-! ### Search-pipeline lemmas -/

theorem length_argsortAsc (s : List ℚ) : (argsortAsc s).length = s.length := by
  simpa using (insSort_perm (fun i j => decide (scoreAt s i ≤ scoreAt s j)) (List.range s.length)).length_eq

theorem argsortAsc_perm (s : List ℚ) : (argsortAsc s).Perm (List.range s.length) :=
  insSort_perm _ _

theorem length_vectorRaw (r : Retriever) (q : String) :
    (r.vectorRaw q).length = r.documents.length := by
  simp [Retriever.vectorRaw, length_vectorScores]

theorem length_fused (r : Retriever) (q : String)
    (hb : (r.bm25Raw q).length = r.documents.length) :
    (r.fused q).length = r.documents.length := by
  simp [Retriever.fused, Retriever.bm25Norm, Retriever.vectorNorm,
    length_normalizeScores, length_vectorRaw, hb]

theorem topIndices_full (r : Retriever) (q : String)
    (hb : (r.bm25Raw q).length = r.documents.length) :
    r.topIndices q (r.documents.length : Int) = (argsortAsc (r.fused q)).reverse := by
  unfold Retriever.topIndices pyTake
  rw [if_neg (by omega : ¬ ((r.documents.length : Int) < 0)), Int.toNat_natCast]
  apply List.take_of_length_le
  rw [List.length_reverse, length_argsortAsc, length_fused r q hb]

theorem topIndices_full_perm (r : Retriever) (q : String)
    (hb : (r.bm25Raw q).length = r.documents.length) :
    (r.topIndices q (r.documents.length : Int)).Perm (List.range r.documents.length) := by
  rw [topIndices_full r q hb]
  have h1 : (argsortAsc (r.fused q)).Perm (List.range r.documents.length) := by
    have h := argsortAsc_perm (r.fused q)
    rwa [length_fused r q hb] at h
  exact (List.reverse_perm _).trans h1

theorem resultSource_resultAt (r : Retriever) (q : String) (idx : Nat) :
    resultSource (r.resultAt q idx) = r.metaSourceAt idx := by
  unfold resultSource Retriever.resultAt Retriever.metaSourceAt
  simp only
  rw [dictGet?_insert_ne _ _ _ (by decide), dictGet?_insert_ne _ _ _ (by decide),
    dictGet?_insert_ne _ _ _ (by decide)]

theorem search_full_sources_perm (r : Retriever) (q : String)
    (hb : (r.bm25Raw q).length = r.documents.length) :
    ((r.search q (r.documents.length : Int)).map resultSource).Perm
      ((List.range r.documents.length).map (fun i => r.metaSourceAt i)) := by
  unfold Retriever.search
  rw [List.map_map]
  have hmap : resultSource ∘ r.resultAt q = fun i => r.metaSourceAt i :=
    funext (fun i => resultSource_resultAt r q i)
  rw [hmap]
  exact (topIndices_full_perm r q hb).map _

theorem search_full_countP (r : Retriever) (q : String)
    (hb : (r.bm25Raw q).length = r.documents.length) (s : MetaVal) :
    List.countP (fun p => decide (resultSource p = s)) (r.search q (r.documents.length : Int)) =
      r.sourceCount s := by
  have h := (search_full_sources_perm r q hb).countP_eq (fun t => decide (t = s))
  rw [List.countP_map, List.countP_map] at h
  exact h

/-! ### Grouping lemmas for `search_multi_source` -/

theorem sum_le_of_nodup_single (keys : List MetaVal) (g : MetaVal → Nat) (s₀ : MetaVal) (k : Nat)
    (hnd : keys.Nodup) (h0 : ∀ s ∈ keys, s ≠ s₀ → g s = 0) (h1 : g s₀ ≤ k) :
    (keys.map g).sum ≤ k := by
  induction keys with
  | nil => simp
  | cons s ks ih =>
    obtain ⟨hs_not, hks⟩ := List.nodup_cons.mp hnd
    simp only [List.map_cons, List.sum_cons]
    by_cases hs : s = s₀
    · subst hs
      have hzero : (ks.map g).sum = 0 := by
        apply List.sum_eq_zero
        intro x hx
        obtain ⟨t, ht, rfl⟩ := List.mem_map.mp hx
        exact h0 t (List.mem_cons_of_mem s ht) (fun e => hs_not (e ▸ ht))
      rw [hzero]
      simpa using h1
    · rw [h0 s (List.mem_cons_self s ks) hs]
      simpa using ih hks (fun t ht => h0 t (List.mem_cons_of_mem s ht))

theorem searchMultiSource_eq_take (r : Retriever) (q : String) (kps : Int)
    (hk : (1 : Int) ≤ kps) :
    r.searchMultiSource q kps =
      ((insSort mvLe (uniqKeys ((r.search q (r.documents.length : Int)).map resultSource))).map
        (fun s => ((r.search q (r.documents.length : Int)).filter
          (fun p => decide (resultSource p = s))).take kps.toNat)).flatten := by
  unfold Retriever.searchMultiSource
  simp only [pyTake, if_neg (by omega : ¬ kps < 0)]

theorem keys_nodup (L : List MetaVal) : (insSort mvLe (uniqKeys L)).Nodup :=
  (insSort_perm mvLe (uniqKeys L)).symm.nodup (nodup_uniqKeys L)

theorem mem_keys_iff {L : List MetaVal} {x : MetaVal} :
    x ∈ insSort mvLe (uniqKeys L) ↔ x ∈ L := by
  rw [(insSort_perm mvLe (uniqKeys L)).mem_iff, mem_uniqKeys]

theorem keys_perm_sourceList (r : Retriever) (q : String)
    (hb : (r.bm25Raw q).length = r.documents.length) :
    (insSort mvLe (uniqKeys ((r.search q (r.documents.length : Int)).map resultSource))).Perm
      r.sourceList := by
  apply (List.perm_ext_iff_of_nodup (keys_nodup _) (nodup_uniqKeys _)).mpr
  intro a
  rw [mem_keys_iff, mem_uniqKeys]
  exact (search_full_sources_perm r q hb).mem_iff

theorem searchMultiSource_length (r : Retriever) (q : String) (kps : Int)
    (hb : (r.bm25Raw q).length = r.documents.length) (hk : (1 : Int) ≤ kps) :
    (r.searchMultiSource q kps).length =
      (r.sourceList.map (fun s => min kps.toNat (r.sourceCount s))).sum := by
  rw [searchMultiSource_eq_take r q kps hk, List.length_flatten, List.map_map]
  have hpt : (List.length ∘ fun s =>
      ((r.search q (r.documents.length : Int)).filter
        (fun p => decide (resultSource p = s))).take kps.toNat) =
      fun s => min kps.toNat (r.sourceCount s) := by
    funext s
    simp only [Function.comp, List.length_take]
    rw [← List.countP_eq_length_filter, search_full_countP r q hb s]
  rw [hpt]
  exact ((keys_perm_sourceList r q hb).map _).sum_eq

theorem searchMultiSource_cap (r : Retriever) (q : String) (kps : Int)
    (hk : (1 : Int) ≤ kps) (s₀ : MetaVal) :
    List.countP (fun p => decide (resultSource p = s₀)) (r.searchMultiSource q kps) ≤
      kps.toNat := by
  rw [searchMultiSource_eq_take r q kps hk, List.countP_flatten, List.map_map]
  apply sum_le_of_nodup_single _ _ s₀ _ (keys_nodup _)
  · intro s _ hss
    simp only [Function.comp]
    apply List.countP_eq_zero.mpr
    intro p hp
    have hsrc : resultSource p = s :=
      of_decide_eq_true (List.mem_filter.mp (List.mem_of_mem_take hp)).2
    rw [hsrc]
    simpa using hss
  · simp only [Function.comp]
    exact le_trans (List.countP_le_length _)
      (by rw [List.length_take]; exact Nat.min_le_left _ _)

theorem searchMultiSource_sub (r : Retriever) (q : String) (kps : Int)
    (hk : (1 : Int) ≤ kps) :
    ∀ p ∈ r.searchMultiSource q kps, p ∈ r.search q (r.documents.length : Int) := by
  intro p hp
  rw [searchMultiSource_eq_take r q kps hk] at hp
  obtain ⟨piece, hpiece, hmem⟩ := List.mem_flatten.mp hp
  obtain ⟨s, _, rfl⟩ := List.mem_map.mp hpiece
  exact (List.mem_filter.mp (List.mem_of_mem_take hmem)).1

/-! ### Fused-score and ranking-boundary lemmas -/

theorem scoreAt_fused (r : Retriever) (q : String) {i : Nat}
    (hi : i < (r.fused q).length) :
    scoreAt (r.fused q) i =
      r.bm25Weight * scoreAt (r.bm25Norm q) i + r.alpha * scoreAt (r.vectorNorm q) i := by
  have hlen : i < (r.bm25Norm q).length ∧ i < (r.vectorNorm q).length := by
    rw [Retriever.fused, List.length_zipWith] at hi
    omega
  exact scoreAt_zipWith hlen.1 hlen.2

theorem length_bm25Norm (r : Retriever) (q : String) :
    (r.bm25Norm q).length = (r.bm25Raw q).length := length_normalizeScores _

theorem length_vectorNorm (r : Retriever) (q : String) :
    (r.vectorNorm q).length = r.documents.length := by
  rw [Retriever.vectorNorm, length_normalizeScores, length_vectorRaw]

theorem fused_alpha_zero (r : Retriever) (q : String)
    (hb : (r.bm25Raw q).length = r.documents.length) (h0 : r.alpha = 0) {i : Nat}
    (hi : i < r.documents.length) :
    scoreAt (r.fused q) i = scoreAt (r.bm25Norm q) i := by
  rw [scoreAt_fused r q (by rw [length_fused r q hb]; exact hi)]
  simp [Retriever.bm25Weight, h0]

theorem fused_alpha_one (r : Retriever) (q : String)
    (hb : (r.bm25Raw q).length = r.documents.length) (h1 : r.alpha = 1) {i : Nat}
    (hi : i < r.documents.length) :
    scoreAt (r.fused q) i = scoreAt (r.vectorNorm q) i := by
  rw [scoreAt_fused r q (by rw [length_fused r q hb]; exact hi)]
  simp [Retriever.bm25Weight, h1]

theorem argsort_fused_eq (r : Retriever) (q : String)
    (hb : (r.bm25Raw q).length = r.documents.length) (s : List ℚ)
    (hlen : s.length = r.documents.length)
    (hpt : ∀ i < r.documents.length, ∀ j < r.documents.length,
      (scoreAt (r.fused q) i ≤ scoreAt (r.fused q) j ↔ scoreAt s i ≤ scoreAt s j)) :
    argsortAsc (r.fused q) = argsortAsc s := by
  unfold argsortAsc
  rw [length_fused r q hb, hlen]
  apply insSort_congr
  intro i hi j hj
  rw [List.mem_range] at hi hj
  exact decide_eq_decide.mpr (hpt i hi j hj)

theorem topIndices_eq_pureRanking_of_argsort (r : Retriever) (q : String) (k : Int)
    (s : List ℚ) (h : argsortAsc (r.fused q) = argsortAsc s) :
    r.topIndices q k = pureRanking s k := by
  unfold Retriever.topIndices pureRanking
  rw [h]

/-! ### Lemmas about nonpositive `k` -/

theorem search_length_neg (r : Retriever) (q : String) {k : Int}
    (hb : (r.bm25Raw q).length = r.documents.length) (hk : k < 0) :
    (r.search q k).length = r.documents.length - (-k).toNat := by
  unfold Retriever.search Retriever.topIndices pyTake
  rw [if_pos hk]
  simp only [List.length_map, List.length_take, List.length_reverse, length_argsortAsc,
    length_fused r q hb]
  omega

theorem search_zero (r : Retriever) (q : String) : r.search q 0 = [] := by
  unfold Retriever.search Retriever.topIndices pyTake
  simp

theorem searchMultiSource_zero (r : Retriever) (q : String) :
    r.searchMultiSource q 0 = [] := by
  unfold Retriever.searchMultiSource
  simp [pyTake]

/-! ### Result-metadata lemmas -/

theorem resultAt_metadata (r : Retriever) (q : String) (idx : Nat) :
    dictGet? (r.resultAt q idx).1.metadata hybridKey =
        some (MetaVal.num (scoreAt (r.fused q) idx)) ∧
      dictGet? (r.resultAt q idx).1.metadata bm25Key =
        some (MetaVal.num (scoreAt (r.bm25Norm q) idx)) ∧
      dictGet? (r.resultAt q idx).1.metadata vectorKey =
        some (MetaVal.num (scoreAt (r.vectorNorm q) idx)) := by
  unfold Retriever.resultAt
  simp only
  refine ⟨?_, ?_, ?_⟩
  · rw [dictGet?_insert_ne _ _ _ (by decide), dictGet?_insert_ne _ _ _ (by decide),
      dictGet?_insert_self]
  · rw [dictGet?_insert_ne _ _ _ (by decide), dictGet?_insert_self]
  · rw [dictGet?_insert_self]

theorem Retriever.ext_eq {r₁ r₂ : Retriever} (h1 : r₁.alpha = r₂.alpha)
    (h2 : r₁.documents = r₂.documents) (h3 : r₁.metadatas = r₂.metadatas)
    (h4 : r₁.tokenizedCorpus = r₂.tokenizedCorpus)
    (h5 : r₁.bm25GetScores = r₂.bm25GetScores)
    (h6 : r₁.similaritySearch = r₂.similaritySearch) : r₁ = r₂ := by
  cases r₁
  cases r₂
  simp_all

/-! ### Claim theorems -/

/-- C4: for every non-empty raw score vector, `_normalize_scores` returns
`(raw[i] - min) / (max - min)` per entry (outside the degenerate case), every
normalized value lies in `[0, 1]`, the maximum raw value maps to exactly `1`,
the minimum to exactly `0` (non-degenerate case), and when `max = min`
(single-entry or all-zero vectors included) every entry maps to `1` with no
division by zero. -/
theorem C4_normalization (s : List ℚ) (hs : s ≠ []) :
    (∀ i < s.length, ¬ listMax s = listMin s →
        scoreAt (normalizeScores s) i = (scoreAt s i - listMin s) / (listMax s - listMin s)) ∧
      (∀ i < s.length, 0 ≤ scoreAt (normalizeScores s) i ∧ scoreAt (normalizeScores s) i ≤ 1) ∧
      (∀ i < s.length, scoreAt s i = listMax s → scoreAt (normalizeScores s) i = 1) ∧
      (∀ i < s.length, ¬ listMax s = listMin s → scoreAt s i = listMin s →
        scoreAt (normalizeScores s) i = 0) ∧
      (listMax s = listMin s → ∀ i < s.length, scoreAt (normalizeScores s) i = 1) := by
  refine ⟨fun i hi h => normalizeScores_formula hi h, fun i hi => ?_, fun i hi hmax => ?_,
    fun i hi h hmin => ?_, fun h i hi => normalizeScores_uniform hi h⟩
  · by_cases h : listMax s = listMin s
    · rw [normalizeScores_uniform hi h]
      exact ⟨zero_le_one, le_refl 1⟩
    · have hpos := sub_listMin_pos hs h
      rw [normalizeScores_formula hi h]
      constructor
      · exact div_nonneg (sub_nonneg.mpr (listMin_le (scoreAt_mem hi))) (le_of_lt hpos)
      · exact (div_le_one hpos).mpr (sub_le_sub_right (le_listMax (scoreAt_mem hi)) _)
  · by_cases h : listMax s = listMin s
    · exact normalizeScores_uniform hi h
    · rw [normalizeScores_formula hi h, hmax]
      exact div_self (ne_of_gt (sub_listMin_pos hs h))
  · rw [normalizeScores_formula hi h, hmin, sub_self, zero_div]

/-- C4 witness: the theorem applied to the concrete vector `[3, 1, 2]`. -/
theorem C4_normalization_witness :
    scoreAt (normalizeScores [3, 1, 2]) 0 = 1 ∧ 0 ≤ scoreAt (normalizeScores [3, 1, 2]) 1 :=
  ⟨(C4_normalization [3, 1, 2] (by decide)).2.2.1 0 (by decide) (by decide),
    ((C4_normalization [3, 1, 2] (by decide)).2.1 1 (by decide)).1⟩

/-- C5 counterexample: with corpus `[a, b]` and the similarity source
returning only `(a, 2000)` (distance greater than 1000), the absent chunk `b`
gets the fill score `-1000`, which is strictly greater than — not less than or
equal to — the returned chunk's score `-2000`. The claim's universally
quantified comparison is false. -/
theorem C5_counterexample :
    exR2.vectorRaw qy = [-2000, -1000] ∧
      ¬ scoreAt (exR2.vectorRaw qy) 1 ≤ scoreAt (exR2.vectorRaw qy) 0 := by
  constructor
  · decide
  · decide

/-- C5 amended: `search` tolerates a partial similarity map without failing;
every absent chunk is assigned the constant pre-normalization fill score
`-1000.0`, and this fill is less than or equal to every returned chunk's score
provided every returned distance is at most `1000`. -/
theorem C5_fill_minus_1000 (docs : List String) (results : List (String × ℚ)) (i : Nat)
    (hi : i < docs.length) (hnone : vecMap docs results i = none) :
    scoreAt (vectorScores docs results) i = -1000 ∧
      (∀ j, j < docs.length → ∀ v : ℚ, vecMap docs results j = some v →
        (∀ p ∈ results, p.2 ≤ 1000) →
        scoreAt (vectorScores docs results) i ≤ scoreAt (vectorScores docs results) j) := by
  have hfill : scoreAt (vectorScores docs results) i = -1000 := by
    rw [scoreAt_vectorScores hi, hnone]
    rfl
  refine ⟨hfill, fun j hj v hv hd => ?_⟩
  rw [hfill, scoreAt_vectorScores hj, hv]
  rcases vecMapFrom_some hv with ⟨p, hp, _, rfl⟩ | hcontra
  · simpa using neg_le_neg (hd p hp)
  · cases hcontra

/-- C5 witness: the amended theorem at corpus `[a, b]` with one returned
result `(a, 2)` whose distance is below the `1000` bound. -/
theorem C5_fill_minus_1000_witness :
    scoreAt (vectorScores exDocs2 [(txtA, 2)]) 1 = -1000 ∧
      scoreAt (vectorScores exDocs2 [(txtA, 2)]) 1 ≤ scoreAt (vectorScores exDocs2 [(txtA, 2)]) 0 :=
  ⟨(C5_fill_minus_1000 exDocs2 [(txtA, 2)] 1 (by decide) (by decide)).1,
    (C5_fill_minus_1000 exDocs2 [(txtA, 2)] 1 (by decide) (by decide)).2 0 (by decide) (-2)
      (by decide) (by decide)⟩

/-- C6: for every query and every in-range chunk position `i`, the fused score
equals `(1 - alpha) * normalized_lexical[i] + alpha * normalized_vector[i]`,
with `alpha` the fixed per-instance vector weight in `[0, 1]`. -/
theorem C6_fused_formula (r : Retriever) (q : String) (i : Nat)
    (h0 : 0 ≤ r.alpha) (h1 : r.alpha ≤ 1) (hi : i < (r.fused q).length) :
    scoreAt (r.fused q) i =
      (1 - r.alpha) * scoreAt (r.bm25Norm q) i + r.alpha * scoreAt (r.vectorNorm q) i := by
  rw [scoreAt_fused r q hi]
  rfl

/-- C6 witness: the fused-score formula evaluated on the 3-chunk scenario
retriever at position 0. -/
theorem C6_fused_formula_witness :
    scoreAt (exR.fused qy) 0 =
      (1 - exR.alpha) * scoreAt (exR.bm25Norm qy) 0 + exR.alpha * scoreAt (exR.vectorNorm qy) 0 :=
  C6_fused_formula exR qy 0 (by norm_num [exR, mkRetriever]) (by norm_num [exR, mkRetriever])
    (by decide)

/-- C8: `search` is deterministic — two retrievers over the same corpus, the
same `alpha`, the same BM25 index and the same similarity-source responses
return identical result lists (same documents, same order, same fused, lexical
and vector score components) for the same query and `k`. -/
theorem C8_deterministic (r₁ r₂ : Retriever) (q : String) (k : Int)
    (h1 : r₁.alpha = r₂.alpha) (h2 : r₁.documents = r₂.documents)
    (h3 : r₁.metadatas = r₂.metadatas) (h4 : r₁.tokenizedCorpus = r₂.tokenizedCorpus)
    (h5 : r₁.bm25GetScores = r₂.bm25GetScores)
    (h6 : r₁.similaritySearch = r₂.similaritySearch) :
    r₁.search q k = r₂.search q k := by
  rw [Retriever.ext_eq h1 h2 h3 h4 h5 h6]

/-- C8 witness: two identical calls on the scenario retriever. -/
theorem C8_deterministic_witness : exR.search qy 3 = exR.search qy 3 :=
  C8_deterministic exR exR qy 3 rfl rfl rfl rfl rfl rfl

/-- C9: when two chunks have byte-identical text, the content-equality reverse
lookup (`documents.index`) only ever resolves to the first position carrying a
given text, so a later duplicate position never receives a distance from the
returned results and keeps the absent-chunk fill score `-1000`. -/
theorem C9_duplicate_text (docs : List String) (results : List (String × ℚ)) (i j : Nat)
    (hij : i < j) (hj : j < docs.length)
    (hdup : docs.getD i noText = docs.getD j noText) :
    vecMap docs results j = none ∧
      scoreAt (vectorScores docs results) j = -1000 ∧
      (∀ idx : Nat, ∀ v : ℚ, vecMap docs results idx = some v →
        firstIdx? docs (docs.getD idx noText) = some idx) := by
  have hnone : vecMap docs results j = none := vecMap_dup_none hij hj hdup
  refine ⟨hnone, ?_, fun idx v hv => vecMap_some_firstIdx hv⟩
  rw [scoreAt_vectorScores hj, hnone]
  rfl

/-- C9 witness: corpus `[a, a, b]` with the similarity source returning
results for both distinct texts — the duplicate position 1 receives nothing
and keeps the fill score. -/
theorem C9_duplicate_text_witness :
    vecMap exDocs3 [(txtA, 1), (txtB, 3)] 1 = none ∧
      scoreAt (vectorScores exDocs3 [(txtA, 1), (txtB, 3)]) 1 = -1000 :=
  ⟨(C9_duplicate_text exDocs3 [(txtA, 1), (txtB, 3)] 0 1 (by decide) (by decide) (by decide)).1,
    (C9_duplicate_text exDocs3 [(txtA, 1), (txtB, 3)] 0 1 (by decide) (by decide)
      (by decide)).2.1⟩

/-- C1 counterexample: in the spec's 3-chunk tie scenario all fused scores
equal `1/2`, yet `search` with `k = 3` returns the documents in order
`[B1, A2, A1]`, not the claimed original corpus order `[A1, A2, B1]` — the
code ascending-argsorts and then reverses, so ties come out in reverse corpus
order. -/
theorem C1_counterexample :
    (exR.search qy 3).map (fun p => p.1.page_content) = [txtB1, txtA2, txtA1] ∧
      [txtB1, txtA2, txtA1] ≠ [txtA1, txtA2, txtB1] :=
  ⟨rfl, by decide⟩

/-- C1 amended: ties are NOT broken by original corpus order. In the 3-chunk
scenario all three fused scores equal `1/2`, and `search` with `k = 3` ranks
the positions `[2, 1, 0]` and returns `[B1, A2, A1]` — reverse corpus order —
because the code reverses an ascending argsort (at this array size numpy's
argsort is its stable insertion sort, which the model matches exactly; for
larger corpora the default quicksort makes the tie order deterministic but
unspecified, so no universal tie order is claimed). -/
theorem C1_scenario_reverse :
    scoreAt (exR.fused qy) 0 = 1/2 ∧ scoreAt (exR.fused qy) 1 = 1/2 ∧
      scoreAt (exR.fused qy) 2 = 1/2 ∧
      exR.topIndices qy 3 = [2, 1, 0] ∧
      (exR.search qy 3).map (fun p => p.1.page_content) = [txtB1, txtA2, txtA1] :=
  ⟨rfl, rfl, rfl, rfl, rfl⟩

/-- C2 counterexample: `search` with `k = -1` is not rejected — it runs the
full scoring pipeline and returns a non-empty result list (of length
`N - 1 = 2`), because Python slicing applies to a negative `k`. -/
theorem C2_counterexample :
    exR.search qy (-1) ≠ [] ∧ (exR.search qy (-1)).length = 2 := by
  have hlen : (exR.search qy (-1)).length = 2 := rfl
  refine ⟨fun h => ?_, hlen⟩
  rw [h] at hlen
  simp at hlen

/-- C2 amended: neither `search` nor `search_multi_source` validates `k`; all
scoring work runs regardless. `k = 0` yields the empty result list (for both
entry points), and `k < 0` yields `max(0, N - |k|)` results via Python slice
semantics — never an invalid-argument error. -/
theorem C2_no_validation (r : Retriever) (q : String) (k : Int)
    (hb : (r.bm25Raw q).length = r.documents.length) (hk : k ≤ 0) :
    (k < 0 → (r.search q k).length = r.documents.length - (-k).toNat) ∧
      (k = 0 → r.search q k = [] ∧ r.searchMultiSource q k = []) := by
  refine ⟨fun hneg => search_length_neg r q hb hneg, fun h0 => ?_⟩
  subst h0
  exact ⟨search_zero r q, searchMultiSource_zero r q⟩

/-- C2 witness: the amended theorem at `k = -1` on the 3-chunk retriever. -/
theorem C2_no_validation_witness :
    (exR.search qy (-1)).length = exR.documents.length - (-(-1) : Int).toNat :=
  (C2_no_validation exR qy (-1) rfl (by decide)).1 (by decide)

/-- C3: for `k_per_source ≥ 1`, `search_multi_source` equals the full-corpus
fused ranking grouped by source label, each group truncated to its
`k_per_source` highest-ranked entries, concatenated over the sorted distinct
source labels; consequently no source occurs more than `k_per_source` times,
every returned pair occurs in the full ranking with its fused score unchanged,
and the total count is the sum over sources of
`min(k_per_source, chunks_in_source)`. -/
theorem C3_multi_source (r : Retriever) (q : String) (kps : Int)
    (hb : (r.bm25Raw q).length = r.documents.length) (hk : (1 : Int) ≤ kps) :
    (∀ s, List.countP (fun p => decide (resultSource p = s)) (r.searchMultiSource q kps) ≤
        kps.toNat) ∧
      (r.searchMultiSource q kps).length =
        (r.sourceList.map (fun s => min kps.toNat (r.sourceCount s))).sum ∧
      (∀ p ∈ r.searchMultiSource q kps, p ∈ r.search q (r.documents.length : Int)) ∧
      r.searchMultiSource q kps =
        ((insSort mvLe (uniqKeys ((r.search q (r.documents.length : Int)).map
            resultSource))).map
          (fun s => ((r.search q (r.documents.length : Int)).filter
            (fun p => decide (resultSource p = s))).take kps.toNat)).flatten :=
  ⟨fun s => searchMultiSource_cap r q kps hk s,
    searchMultiSource_length r q kps hb hk,
    searchMultiSource_sub r q kps hk,
    searchMultiSource_eq_take r q kps hk⟩

/-- C3 witness: on the 3-chunk, 2-source scenario with `k_per_source = 1` the
output has `min(1,2) + min(1,1) = 2` entries and source `A` occurs at most
once. -/
theorem C3_multi_source_witness :
    (exR.searchMultiSource qy 1).length = 2 ∧
      List.countP (fun p => decide (resultSource p = srcValA)) (exR.searchMultiSource qy 1) ≤
        (1 : Int).toNat := by
  refine ⟨?_, (C3_multi_source exR qy 1 rfl (by decide)).1 srcValA⟩
  have h := (C3_multi_source exR qy 1 rfl (by decide)).2.1
  rw [h]
  rfl

/-- C7: with `alpha = 0` the ranking produced by `search` coincides, for every
`k`, with the ranking of the raw BM25 scores; with `alpha = 1` it coincides
with the ranking of the negated vector distances (the pre-normalization vector
score array) — normalization is order-preserving, so the boundary weights
degenerate to the pure single-signal orders. -/
theorem C7_weight_boundary (r : Retriever) (q : String) (k : Int)
    (hb : (r.bm25Raw q).length = r.documents.length) :
    (r.alpha = 0 → r.topIndices q k = pureRanking (r.bm25Raw q) k) ∧
      (r.alpha = 1 → r.topIndices q k = pureRanking (r.vectorRaw q) k) := by
  constructor
  · intro h0
    apply topIndices_eq_pureRanking_of_argsort
    apply argsort_fused_eq r q hb _ hb
    intro i hi j hj
    rw [fused_alpha_zero r q hb h0 hi, fused_alpha_zero r q hb h0 hj]
    exact normalize_le_iff (by rw [hb]; exact hi) (by rw [hb]; exact hj)
  · intro h1
    apply topIndices_eq_pureRanking_of_argsort
    apply argsort_fused_eq r q hb _ (length_vectorRaw r q)
    intro i hi j hj
    rw [fused_alpha_one r q hb h1 hi, fused_alpha_one r q hb h1 hj]
    exact normalize_le_iff (by rw [length_vectorRaw]; exact hi)
      (by rw [length_vectorRaw]; exact hj)

/-- C7 witness: the pure-lexical boundary on an `alpha = 0` retriever. -/
theorem C7_weight_boundary_witness :
    exR0.topIndices qy 3 = pureRanking (exR0.bm25Raw qy) 3 :=
  (C7_weight_boundary exR0 qy 3 rfl).1 rfl

/-- C10: `search` leaves the retriever state unchanged — the documents list,
metadata list, tokenized corpus and BM25 index are identical before and after
the call (the state-threaded `searchSt` returns the state it was given) —
while every returned result is a per-position `Document` whose (fresh) metadata
dict carries the added `hybrid_score`, `bm25_score` and `vector_score` keys. -/
theorem C10_state_unchanged (r : Retriever) (q : String) (k : Int) :
    (r.searchSt q k).1 = r ∧
      (r.searchSt q k).1.documents = r.documents ∧
      (r.searchSt q k).1.metadatas = r.metadatas ∧
      (r.searchSt q k).1.tokenizedCorpus = r.tokenizedCorpus ∧
      (r.searchSt q k).1.bm25GetScores = r.bm25GetScores ∧
      (∀ p ∈ (r.searchSt q k).2, ∃ idx, p = r.resultAt q idx) ∧
      (∀ idx ∈ r.topIndices q k,
        dictGet? (r.resultAt q idx).1.metadata hybridKey =
            some (MetaVal.num (scoreAt (r.fused q) idx)) ∧
          dictGet? (r.resultAt q idx).1.metadata bm25Key =
            some (MetaVal.num (scoreAt (r.bm25Norm q) idx)) ∧
          dictGet? (r.resultAt q idx).1.metadata vectorKey =
            some (MetaVal.num (scoreAt (r.vectorNorm q) idx))) := by
  refine ⟨rfl, rfl, rfl, rfl, rfl, fun p hp => ?_, fun idx _ => resultAt_metadata r q idx⟩
  simp only [Retriever.searchSt, Retriever.search] at hp
  obtain ⟨idx, _, rfl⟩ := List.mem_map.mp hp
  exact ⟨idx, rfl⟩

/-- C10 witness: state preservation and the provenance keys on the scenario
retriever at ranked position 2. -/
theorem C10_state_unchanged_witness :
    (exR.searchSt qy 3).1 = exR ∧
      dictGet? (exR.resultAt qy 2).1.metadata hybridKey =
        some (MetaVal.num (scoreAt (exR.fused qy) 2)) :=
  ⟨(C10_state_unchanged exR qy 3).1,
    ((C10_state_unchanged exR qy 3).2.2.2.2.2.2 2
      (by rw [show exR.topIndices qy 3 = [2, 1, 0] from rfl]
          exact List.mem_cons_self 2 [1, 0])).1⟩
